import Mathlib

/-!
Shallow embedding of the Tenor API wrapper (TypeScript) into Lean 4.

The repository consists of:
  - `src/utils/parameters.ts` — `renameParameters` (idiomatic → wire parameter
    names, via an object built with `Object.assign`) and `createUrlParameters`
    (drops falsy and empty-array values, serializes everything else through
    `URLSearchParams`);
  - `src/utils/fetch.ts` — `fetchTenorApi` (HTTP GET, decode JSON, throw a
    `GoogleApiError` built from the decoded error envelope on non-ok status)
    and `fetchTenorApiEndpoint` (composes `resource ++ "?" ++ query`);
  - `src/tenor.ts` — the `TenorApi` class: a private access key, an options
    bag, `#combineParameters` (spread merge of key, options, per-call
    parameters) and one public method per remote capability.

JavaScript objects are modelled as association lists `List (String × Value)`
in insertion order; property assignment (`Object.assign` / spread) is
`objInsert`, which overwrites an existing key in place and otherwise appends.
`URLSearchParams` serialization/parsing is modelled byte-for-byte after the
application/x-www-form-urlencoded rules (UTF-8 bytes, space as `+`, the safe
set `*-._` plus alphanumerics, `%XX` otherwise).
-/

/-- Values a parameter field can hold: JavaScript `undefined`, booleans,
numbers (the API only uses integers; modelled as `Int`), strings, and
string arrays. -/
inductive Value where
  | undef
  | bool (b : Bool)
  | num (n : Int)
  | str (s : String)
  | arr (xs : List String)
  deriving DecidableEq, Repr

/-- JavaScript truthiness test `if (value)` for the value types that occur:
`undefined`, `false`, `0` and `""` are falsy; arrays (even empty) are truthy. -/
def truthyValue : Value → Bool
  | .undef => false
  | .bool b => b
  | .num n => n != 0
  | .str s => s != ""
  | .arr _ => true

/-- Whether a value is an array with zero elements
(`Array.isArray(value) && value.length === 0`). -/
def isEmptyArray : Value → Bool
  | .arr [] => true
  | _ => false

/-- Whether a value is an array at all (`Array.isArray(value)`). -/
def isArrayValue : Value → Bool
  | .arr _ => true
  | _ => false

/-- JavaScript `Array.prototype.toString`: elements joined with a comma. -/
def commaJoin : List String → String
  | [] => ""
  | [x] => x
  | x :: xs => x ++ "," ++ commaJoin xs

/-- JavaScript `value.toString()` for the value types that occur. -/
def valueToString : Value → String
  | .undef => "undefined"
  | .bool b => if b then "true" else "false"
  | .num n => toString n
  | .str s => s
  | .arr xs => commaJoin xs

/-- First-match association-list lookup: JavaScript property read on an
object whose entries are listed in insertion order. -/
def lookupKey {α : Type} (k : String) : List (String × α) → Option α
  | [] => none
  | p :: rest => if p.1 = k then some p.2 else lookupKey k rest

/-- The keys of an object, in insertion order (`Object.keys`). -/
def mapKeys {α : Type} (m : List (String × α)) : List String :=
  m.map Prod.fst

/-- Whether an object has the given own property (`Object.hasOwn`). -/
def containsKey {α : Type} (k : String) : List (String × α) → Bool
  | [] => false
  | p :: rest => if p.1 = k then true else containsKey k rest

/-- JavaScript property assignment `obj[k] = v`: if the key already exists its
value is replaced in place (insertion position kept), otherwise the new entry
is appended at the end. -/
def objInsert {α : Type} (m : List (String × α)) (k : String) (v : α) :
    List (String × α) :=
  if containsKey k m then m.map (fun p => if p.1 = k then (k, v) else p)
  else m ++ [(k, v)]

/-- Object spread `{ ...base, ...m }`: assign every entry of `m` onto `base`
in order. -/
def spreadInto {α : Type} (base m : List (String × α)) : List (String × α) :=
  m.foldl (fun acc p => objInsert acc p.1 p.2) base

/-- First-some choice on options, used to state spread-merge lookups. -/
def orElseOpt {α : Type} (a b : Option α) : Option α :=
  match a with
  | some v => some v
  | none => b

/-- The rename table of `renameParameters` (src/utils/parameters.ts):
idiomatic parameter name to wire name; every other key passes through
unchanged. -/
def renameKey (k : String) : String :=
  if k = "aspectRatioRange" then "ar_range"
  else if k = "clientKey" then "client_key"
  else if k = "contentFilter" then "contentfilter"
  else if k = "contentFormats" then "media_filter"
  else if k = "positionId" then "pos"
  else if k = "isRandomOrder" then "random"
  else if k = "searchFilter" then "searchfilter"
  else if k = "searchTerm" then "q"
  else k

/-- Whether a key is in the rename table. -/
def inRenameTable (k : String) : Bool :=
  k = "aspectRatioRange" || k = "clientKey" || k = "contentFilter" ||
  k = "contentFormats" || k = "positionId" || k = "isRandomOrder" ||
  k = "searchFilter" || k = "searchTerm"

/-- The field names of the `EndpointParameters` interface
(src/tenor.types.ts), i.e. the domain of idiomatic parameter names
a statically typed caller can pass. -/
def endpointParameterKeys : List String :=
  ["aspectRatioRange", "clientKey", "contentFilter", "country", "id", "ids",
   "key", "limit", "locale", "contentFormats", "positionId", "isRandomOrder",
   "searchFilter", "type", "searchTerm"]

/-- `renameParameters` (src/utils/parameters.ts): iterate over the entries of
the input object in order and assign each value under its renamed key onto an
initially empty result object (`Object.assign`). -/
def renameParameters (parameters : List (String × Value)) :
    List (String × Value) :=
  parameters.foldl (fun acc p => objInsert acc (renameKey p.1) p.2) []

/-- `createUrlParameters` (src/utils/parameters.ts): keep an entry when its
value is truthy and not an empty array, appending the pair
`(name, value.toString())` to the `URLSearchParams` list in order. -/
def createUrlParameters (parameters : List (String × Value)) :
    List (String × String) :=
  parameters.filterMap fun p =>
    if truthyValue p.2 && !isEmptyArray p.2 then some (p.1, valueToString p.2)
    else none

/-- UTF-8 encoding of a Unicode code point, written arithmetically
(the standard 1–4 byte layout). -/
def utf8EncodeCodepoint (n : Nat) : List Nat :=
  if n < 0x80 then [n]
  else if n < 0x800 then [0xC0 + n / 64, 0x80 + n % 64]
  else if n < 0x10000 then
    [0xE0 + n / 4096, 0x80 + n / 64 % 64, 0x80 + n % 64]
  else
    [0xF0 + n / 262144, 0x80 + n / 4096 % 64, 0x80 + n / 64 % 64,
     0x80 + n % 64]

/-- The UTF-8 bytes of a string. -/
def bytesOfString (s : String) : List Nat :=
  s.data.foldr (fun c acc => utf8EncodeCodepoint c.toNat ++ acc) []

/-- Whether a byte stays literal under application/x-www-form-urlencoded
serialization: `*`, `-`, `.`, `_`, digits, and ASCII letters. -/
def isSafeByte (b : Nat) : Bool :=
  b = 0x2A || b = 0x2D || b = 0x2E || b = 0x5F ||
  (0x30 ≤ b && b ≤ 0x39) || (0x41 ≤ b && b ≤ 0x5A) || (0x61 ≤ b && b ≤ 0x7A)

/-- Uppercase hexadecimal digit for a value below 16. -/
def hexDigitChar (d : Nat) : Char :=
  Char.ofNat (if d < 10 then 48 + d else 55 + d)

/-- application/x-www-form-urlencoded serialization of one byte: space becomes
`+`, safe bytes stay literal, everything else becomes `%XX`. -/
def pctEncodeByte (b : Nat) : List Char :=
  if b = 0x20 then ['+']
  else if isSafeByte b then [Char.ofNat b]
  else ['%', hexDigitChar (b / 16), hexDigitChar (b % 16)]

/-- Percent-encoding of a full component, as `URLSearchParams.toString`
applies to each name and value: UTF-8 bytes, each serialized by
`pctEncodeByte`. -/
def encodeComponent (s : String) : String :=
  String.mk ((bytesOfString s).foldr (fun b acc => pctEncodeByte b ++ acc) [])

/-- One serialized `name=value` pair of `URLSearchParams.toString`. -/
def pairChunk (p : String × String) : String :=
  encodeComponent p.1 ++ "=" ++ encodeComponent p.2

/-- Join serialized pairs with `&`, as `URLSearchParams.toString` does. -/
def joinAmp : List String → String
  | [] => ""
  | [s] => s
  | s :: rest => s ++ "&" ++ joinAmp rest

/-- `URLSearchParams.toString` on the retained parameter pairs. -/
def queryToString (pairs : List (String × String)) : String :=
  joinAmp (pairs.map pairChunk)

/-- JSON values, as produced by `response.json()`. -/
inductive Json where
  | null
  | bool (b : Bool)
  | num (n : Int)
  | str (s : String)
  | arr (xs : List Json)
  | obj (fields : List (String × Json))

/-- JavaScript property access `j[k]` on a decoded JSON value; a missing
property or a non-object base reads as `null` here (standing in for
`undefined`, which never occurs along the verified paths). -/
def jsonGet (j : Json) (k : String) : Json :=
  match j with
  | .obj fields =>
    match lookupKey k fields with
    | some v => v
    | none => .null
  | _ => .null

/-- Modelled from the spec: the class `GoogleApiError`
(src/errors/google-api-error.ts) is not present under src/; per the spec it
is a typed remote API error carrying the code and message of the decoded
error envelope, where the envelope is the object bound to the body's
`error` property. -/
structure GoogleApiError where
  code : Json
  message : Json

/-- Modelled from the spec: construct a `GoogleApiError` from the object the
invoker passes to its constructor (the body's `error` property), carrying
that object's `code` and `message`. -/
def GoogleApiError.ofErrorBody (e : Json) : GoogleApiError :=
  ⟨jsonGet e "code", jsonGet e "message"⟩

/-- A decoded HTTP response: its status code and its JSON body. -/
structure HttpResponse where
  status : Nat
  body : Json

/-- The WHATWG `Response.ok` predicate: status in the range 200–299. -/
def responseOk (status : Nat) : Bool :=
  200 ≤ status && status < 300

/-- A mocked transport: the underlying `fetch` plus JSON decode, as a
function from the requested path to the decoded response. -/
def Transport : Type := String → HttpResponse

/-- `fetchTenorApi` (src/utils/fetch.ts): issue the GET, decode the body,
throw `new GoogleApiError(body.error)` when `response.ok` is false, and
return the decoded body otherwise. -/
def fetchTenorApi (transport : Transport) (path : String) :
    Except GoogleApiError Json :=
  let response := transport path
  if responseOk response.status then .ok response.body
  else .error (GoogleApiError.ofErrorBody (jsonGet response.body "error"))

/-- `fetchTenorApiEndpoint` (src/utils/fetch.ts): compose the path as
`resourceName ++ "?" ++ serialized parameters` and delegate to
`fetchTenorApi`. -/
def fetchTenorApiEndpoint (transport : Transport) (resourceName : String)
    (parameters : List (String × Value)) : Except GoogleApiError Json :=
  fetchTenorApi transport
    (resourceName ++ "?" ++
      queryToString (createUrlParameters (renameParameters parameters)))

/-- The `TenorApi` client state: the private access key and the options bag
(`undefined` options behave as the empty object under spread, so they are
modelled as the empty list). -/
structure TenorApi where
  key : String
  options : List (String × Value)
  deriving DecidableEq, Repr

/-- `TenorApi.#combineParameters`: the spread merge
`Object.freeze({ key: this.#key, ...this.options, ...parameters })`. -/
def TenorApi.combineParameters (api : TenorApi)
    (parameters : List (String × Value)) : List (String × Value) :=
  spreadInto (spreadInto [("key", Value.str api.key)] api.options) parameters

/-- A GIF category descriptor (`GifCategory` in src/tenor.types.ts). -/
structure GifCategory where
  searchterm : String
  path : String
  image : String
  name : String
  deriving DecidableEq, Repr

/-- The parameter object `TenorApi.getSearchTermSuggestions` hands to the
invoker: `this.#combineParameters({ searchTerm, ...parameters })`. -/
def searchSuggestionsInvokerParameters (api : TenorApi) (searchTerm : String)
    (parameters : List (String × Value)) : List (String × Value) :=
  api.combineParameters
    (spreadInto [("searchTerm", Value.str searchTerm)] parameters)

/-- The parameter object `TenorApi.getSearchTermAutocompletes` hands to the
invoker: `this.#combineParameters({ searchTerm, ...parameters })`. -/
def autocompleteInvokerParameters (api : TenorApi) (searchTerm : String)
    (parameters : List (String × Value)) : List (String × Value) :=
  api.combineParameters
    (spreadInto [("searchTerm", Value.str searchTerm)] parameters)

/-- The parameter object `TenorApi.getTrendingSearchTerms` hands to the
invoker: `this.#combineParameters(parameters)`. -/
def trendingTermsInvokerParameters (api : TenorApi)
    (parameters : List (String × Value)) : List (String × Value) :=
  api.combineParameters parameters

/-- The parameter object `TenorApi.getGifsBySearch` hands to the invoker:
`this.#combineParameters({ searchTerm, ...parameters })`. -/
def searchInvokerParameters (api : TenorApi) (searchTerm : String)
    (parameters : List (String × Value)) : List (String × Value) :=
  api.combineParameters
    (spreadInto [("searchTerm", Value.str searchTerm)] parameters)

/-- The parameter object `TenorApi.getGifsByCategory` serializes onto the
category path: `this.#combineParameters(parameters)`. -/
def categoryInvokerParameters (api : TenorApi)
    (parameters : List (String × Value)) : List (String × Value) :=
  api.combineParameters parameters

/-- The parameter object `TenorApi.getGifsById` hands to the invoker:
`this.#combineParameters({ ids, ...parameters })`. -/
def postsInvokerParameters (api : TenorApi) (ids : List String)
    (parameters : List (String × Value)) : List (String × Value) :=
  api.combineParameters (spreadInto [("ids", Value.arr ids)] parameters)

/-- The parameter object `TenorApi.getFeaturedGifs` hands to the invoker:
`this.#combineParameters(parameters)`. -/
def featuredInvokerParameters (api : TenorApi)
    (parameters : List (String × Value)) : List (String × Value) :=
  api.combineParameters parameters

/-- The parameter object `TenorApi.getGifCategories` hands to the invoker:
`this.#combineParameters(parameters)`. -/
def categoriesInvokerParameters (api : TenorApi)
    (parameters : List (String × Value)) : List (String × Value) :=
  api.combineParameters parameters

/-- The parameter object `TenorApi.registerGifShareEvent` hands to the
invoker. The method body (src/tenor.ts lines 393–396) passes the literal
`{ id, ...parameters }` directly — it does not call
`this.#combineParameters`. -/
def registerShareInvokerParameters (id : String)
    (parameters : List (String × Value)) : List (String × Value) :=
  spreadInto [("id", Value.str id)] parameters

/-- The request path `TenorApi.getGifsByCategory` fetches:
`category.path ++ "&" ++ serialized combined parameters`. -/
def getGifsByCategoryPath (api : TenorApi) (category : GifCategory)
    (parameters : List (String × Value)) : String :=
  category.path ++ "&" ++
    queryToString
      (createUrlParameters (renameParameters (api.combineParameters parameters)))

/-- `TenorApi.getGifsByCategory`: fetch the category's opaque pre-built path
with the serialized remaining parameters appended after a `&`. -/
def TenorApi.getGifsByCategory (api : TenorApi) (transport : Transport)
    (category : GifCategory) (parameters : List (String × Value)) :
    Except GoogleApiError Json :=
  fetchTenorApi transport (getGifsByCategoryPath api category parameters)

/-- `TenorApi.registerGifShareEvent`: fetch the `registershare` resource with
`{ id, ...parameters }` and return the decoded envelope's `status` property
rather than the envelope itself. -/
def TenorApi.registerGifShareEvent (_api : TenorApi) (transport : Transport)
    (id : String) (parameters : List (String × Value)) :
    Except GoogleApiError Json :=
  (fetchTenorApiEndpoint transport "registershare"
      (registerShareInvokerParameters id parameters)).map
    (fun response => jsonGet response "status")

/-- Numeric value of a hexadecimal digit character, if it is one. -/
def hexDigitValue (c : Char) : Option Nat :=
  if '0' ≤ c ∧ c ≤ '9' then some (c.toNat - 48)
  else if 'A' ≤ c ∧ c ≤ 'F' then some (c.toNat - 55)
  else if 'a' ≤ c ∧ c ≤ 'f' then some (c.toNat - 87)
  else none

/-- Modelled from the spec: byte-level half of standard URL query-string
decoding. A `%XX` escape yields the byte `XX`, a `+` yields a space, and any
other character yields its code point (the inputs of interest are ASCII);
a malformed escape makes the parse fail. -/
def pctDecodeAux : Nat → List Char → Option (List Nat)
  | _, [] => some []
  | 0, _ :: _ => none
  | fuel + 1, c :: cs =>
    if c = '%' then
      match cs with
      | h :: l :: rest =>
        match hexDigitValue h, hexDigitValue l with
        | some hv, some lv =>
          (pctDecodeAux fuel rest).map (fun bs => (16 * hv + lv) :: bs)
        | _, _ => none
      | _ => none
    else if c = '+' then (pctDecodeAux fuel cs).map (fun bs => 0x20 :: bs)
    else (pctDecodeAux fuel cs).map (fun bs => c.toNat :: bs)

/-- Modelled from the spec: byte-level decoding of a full component,
supplying the character count as fuel (each step consumes at least one
character). -/
def pctDecodeBytes (l : List Char) : Option (List Nat) :=
  pctDecodeAux l.length l

/-- Modelled from the spec: one step of UTF-8 decoding, the inverse of
`utf8EncodeCodepoint`, with a fuel argument bounding the recursion depth
(each step consumes at least one byte, so the byte count is enough fuel);
fails on a truncated sequence. -/
def utf8DecodeAux : Nat → List Nat → Option (List Char)
  | _, [] => some []
  | 0, _ :: _ => none
  | fuel + 1, b :: bs =>
    if b < 0x80 then (utf8DecodeAux fuel bs).map (fun cs => Char.ofNat b :: cs)
    else if b < 0xE0 then
      match bs with
      | b1 :: bs1 =>
        (utf8DecodeAux fuel bs1).map
          (fun cs => Char.ofNat ((b - 0xC0) * 64 + (b1 - 0x80)) :: cs)
      | [] => none
    else if b < 0xF0 then
      match bs with
      | b1 :: b2 :: bs2 =>
        (utf8DecodeAux fuel bs2).map
          (fun cs =>
            Char.ofNat ((b - 0xE0) * 4096 + (b1 - 0x80) * 64 + (b2 - 0x80)) :: cs)
      | _ => none
    else
      match bs with
      | b1 :: b2 :: b3 :: bs3 =>
        (utf8DecodeAux fuel bs3).map
          (fun cs =>
            Char.ofNat ((b - 0xF0) * 262144 + (b1 - 0x80) * 4096 +
              (b2 - 0x80) * 64 + (b3 - 0x80)) :: cs)
      | _ => none

/-- Modelled from the spec: UTF-8 decoding of a byte list back into
characters, supplying the byte count as fuel. -/
def utf8DecodeBytes (l : List Nat) : Option (List Char) :=
  utf8DecodeAux l.length l

/-- Modelled from the spec: decoding of one percent-encoded component back
into a string. -/
def decodeComponent (cs : List Char) : Option String :=
  match pctDecodeBytes cs with
  | none => none
  | some bs =>
    match utf8DecodeBytes bs with
    | none => none
    | some chars => some (String.mk chars)

/-- Split a character list on every `&`. -/
def splitOnAmp : List Char → List (List Char)
  | [] => [[]]
  | c :: cs =>
    if c = '&' then [] :: splitOnAmp cs
    else
      match splitOnAmp cs with
      | [] => [[c]]
      | g :: gs => (c :: g) :: gs

/-- Split a character list at the first `=`: the part before it and the part
after it (a chunk without `=` is all name, with an empty value). -/
def splitOnEq : List Char → List Char × List Char
  | [] => ([], [])
  | c :: cs =>
    if c = '=' then ([], cs)
    else (c :: (splitOnEq cs).1, (splitOnEq cs).2)

/-- Modelled from the spec: parse each `name=value` chunk of a query string,
splitting at the first `=` and percent-decoding name and value. -/
def parseChunks : List (List Char) → Option (List (String × String))
  | [] => some []
  | ch :: rest =>
    match decodeComponent (splitOnEq ch).1, decodeComponent (splitOnEq ch).2 with
    | some k, some v =>
      match parseChunks rest with
      | some ps => some ((k, v) :: ps)
      | none => none
    | _, _ => none

/-- Modelled from the spec: standard URL query-string decoding
(application/x-www-form-urlencoded parsing, as `new URLSearchParams(s)`
performs): split on `&`, drop empty chunks, split each chunk at its first
`=`, and percent-decode name and value. -/
def parseQuery (s : String) : Option (List (String × String)) :=
  parseChunks ((splitOnAmp s.data).filter (fun ch => !ch.isEmpty))

theorem mapKeys_cons {α : Type} (p : String × α) (rest : List (String × α)) :
    mapKeys (p :: rest) = p.1 :: mapKeys rest := rfl

theorem containsKey_eq_isSome {α : Type} (k : String) (m : List (String × α)) :
    containsKey k m = (lookupKey k m).isSome := by
  induction m with
  | nil => rfl
  | cons p rest ih =>
    by_cases h : p.1 = k <;> simp [containsKey, lookupKey, h, ih]

theorem lookupKey_eq_none_of_not_mem {α : Type} {k : String} {m : List (String × α)}
    (h : k ∉ mapKeys m) : lookupKey k m = none := by
  induction m with
  | nil => rfl
  | cons p rest ih =>
    have h1 : ¬ p.1 = k := fun he => h (by simp [mapKeys, he])
    have h2 : k ∉ mapKeys rest := by
      intro hm
      apply h
      simp only [mapKeys_cons, List.mem_cons]
      exact Or.inr hm
    simp [lookupKey, h1, ih h2]

theorem orElseOpt_none {α : Type} (a : Option α) : orElseOpt a none = a := by
  cases a <;> rfl

theorem lookupKey_map_overwrite_ne {α : Type} (m : List (String × α)) (k : String)
    (v : α) (k' : String) (hne : k ≠ k') :
    lookupKey k' (m.map (fun p => if p.1 = k then (k, v) else p)) =
      lookupKey k' m := by
  induction m with
  | nil => rfl
  | cons p rest ih =>
    have hk : ¬ k' = k := fun hx => hne hx.symm
    by_cases hp : p.1 = k
    · simp [lookupKey, hp, hne, ih]
    · by_cases hp' : p.1 = k' <;> simp [lookupKey, hp, hp', hk, ih]

theorem lookupKey_map_overwrite_self {α : Type} (m : List (String × α)) (k : String)
    (v : α) (hc : containsKey k m = true) :
    lookupKey k (m.map (fun p => if p.1 = k then (k, v) else p)) = some v := by
  induction m with
  | nil => simp [containsKey] at hc
  | cons p rest ih =>
    by_cases hp : p.1 = k
    · simp [lookupKey, hp]
    · have hr : containsKey k rest = true := by
        simpa [containsKey, hp] using hc
      simp [lookupKey, hp, ih hr]

theorem lookupKey_append_single {α : Type} (m : List (String × α)) (k : String)
    (v : α) (k' : String) :
    lookupKey k' (m ++ [(k, v)]) =
      orElseOpt (lookupKey k' m) (if k = k' then some v else none) := by
  induction m with
  | nil => by_cases h : k = k' <;> simp [lookupKey, orElseOpt, h]
  | cons p rest ih =>
    by_cases hp : p.1 = k' <;> simp [lookupKey, hp, ih, orElseOpt]

theorem lookupKey_objInsert {α : Type} (m : List (String × α)) (k : String)
    (v : α) (k' : String) :
    lookupKey k' (objInsert m k v) =
      if k = k' then some v else lookupKey k' m := by
  unfold objInsert
  by_cases hc : containsKey k m
  · simp only [hc, if_true]
    by_cases he : k = k'
    · subst he
      simp [lookupKey_map_overwrite_self m k v hc]
    · simp [he, lookupKey_map_overwrite_ne m k v k' he]
  · simp only [Bool.not_eq_true] at hc
    simp only [hc, Bool.false_eq_true, if_false]
    rw [lookupKey_append_single]
    by_cases he : k = k'
    · subst he
      have hn : lookupKey k m = none := by
        have h2 := containsKey_eq_isSome k m
        rw [hc] at h2
        exact Option.not_isSome_iff_eq_none.mp (by rw [← h2]; simp)
      simp [hn, orElseOpt]
    · simp [he, orElseOpt_none]

theorem spreadInto_cons {α : Type} (base : List (String × α)) (p : String × α)
    (rest : List (String × α)) :
    spreadInto base (p :: rest) = spreadInto (objInsert base p.1 p.2) rest := rfl

theorem lookupKey_spreadInto {α : Type} (base m : List (String × α)) (k : String)
    (h : (mapKeys m).Nodup) :
    lookupKey k (spreadInto base m) =
      orElseOpt (lookupKey k m) (lookupKey k base) := by
  induction m generalizing base with
  | nil => simp [spreadInto, lookupKey, orElseOpt]
  | cons p rest ih =>
    rw [mapKeys_cons, List.nodup_cons] at h
    rw [spreadInto_cons, ih _ h.2, lookupKey_objInsert]
    by_cases he : p.1 = k
    · subst he
      have hn : lookupKey p.1 rest = none := lookupKey_eq_none_of_not_mem h.1
      simp [lookupKey, hn, orElseOpt]
    · simp [lookupKey, he, orElseOpt]

/-- C6: the parameter set used for a call is the merge of the access key,
the client-wide defaults, and the per-call overrides, later layers
overriding earlier ones on key collision; a field present in exactly one
layer appears with that layer's value. -/
theorem C6_combineParameters_three_layer_merge (key : String)
    (options parameters : List (String × Value)) (k : String)
    (hopt : (mapKeys options).Nodup) (hpar : (mapKeys parameters).Nodup) :
    lookupKey k (TenorApi.combineParameters ⟨key, options⟩ parameters) =
      orElseOpt (lookupKey k parameters)
        (orElseOpt (lookupKey k options)
          (if k = "key" then some (Value.str key) else none)) := by
  unfold TenorApi.combineParameters
  rw [lookupKey_spreadInto _ _ _ hpar, lookupKey_spreadInto _ _ _ hopt]
  by_cases he : k = "key"
  · subst he
    simp [lookupKey]
  · have he' : ¬ ("key" : String) = k := fun hx => he hx.symm
    simp [lookupKey, he, he']

/-- C6 witness: with defaults for `clientKey` and `locale` and a per-call
override of `locale`, the merged set takes the per-call `locale`, the
default `clientKey`, and the constructed access key. -/
theorem C6_combineParameters_three_layer_merge_witness :
    lookupKey "locale"
        (TenorApi.combineParameters
          ⟨"test_key", [("clientKey", Value.str "my_test_app"),
                        ("locale", Value.str "en_US")]⟩
          [("locale", Value.str "de")]) = some (Value.str "de") ∧
    lookupKey "clientKey"
        (TenorApi.combineParameters
          ⟨"test_key", [("clientKey", Value.str "my_test_app"),
                        ("locale", Value.str "en_US")]⟩
          [("locale", Value.str "de")]) = some (Value.str "my_test_app") ∧
    lookupKey "key"
        (TenorApi.combineParameters
          ⟨"test_key", [("clientKey", Value.str "my_test_app"),
                        ("locale", Value.str "en_US")]⟩
          [("locale", Value.str "de")]) = some (Value.str "test_key") := by
  have h1 := C6_combineParameters_three_layer_merge "test_key"
    [("clientKey", Value.str "my_test_app"), ("locale", Value.str "en_US")]
    [("locale", Value.str "de")] "locale" (by decide) (by decide)
  have h2 := C6_combineParameters_three_layer_merge "test_key"
    [("clientKey", Value.str "my_test_app"), ("locale", Value.str "en_US")]
    [("locale", Value.str "de")] "clientKey" (by decide) (by decide)
  have h3 := C6_combineParameters_three_layer_merge "test_key"
    [("clientKey", Value.str "my_test_app"), ("locale", Value.str "en_US")]
    [("locale", Value.str "de")] "key" (by decide) (by decide)
  refine ⟨?_, ?_, ?_⟩
  · rw [h1]; rfl
  · rw [h2]; rfl
  · rw [h3]; rfl

/-- C1: the claim fails on the code. Eight of the nine public operations
hand `this.#combineParameters(...)` to the Invoker, but
`registerGifShareEvent` (src/tenor.ts lines 393–396) hands the literal
`{ id, ...parameters }` instead, so its parameter mapping contains neither
the access key given at construction nor any client-wide default, while the
same client's other operations do contain them. -/
theorem C1_register_share_event_omits_standing_configuration :
    lookupKey "key"
        (registerShareInvokerParameters "16989471141791455574"
          [("searchTerm", Value.str "excited")]) = none ∧
    lookupKey "clientKey"
        (registerShareInvokerParameters "16989471141791455574"
          [("searchTerm", Value.str "excited")]) = none ∧
    registerShareInvokerParameters "16989471141791455574"
        [("searchTerm", Value.str "excited")] =
      [("id", Value.str "16989471141791455574"),
       ("searchTerm", Value.str "excited")] ∧
    lookupKey "key"
        (searchSuggestionsInvokerParameters
          ⟨"test_key", [("clientKey", Value.str "my_test_app")]⟩ "excited" []) =
      some (Value.str "test_key") ∧
    lookupKey "clientKey"
        (searchSuggestionsInvokerParameters
          ⟨"test_key", [("clientKey", Value.str "my_test_app")]⟩ "excited" []) =
      some (Value.str "my_test_app") := by
  refine ⟨rfl, rfl, rfl, rfl, rfl⟩

/-- C2: for every call through the Invoker, a response whose status is
outside 200–299 makes the call fail with a `GoogleApiError` carrying exactly
the `code` and `message` of the decoded `error` envelope, and an ok status
returns the decoded body unchanged; in particular status 400 with the
`BAD_REQUEST` envelope yields that error, and status 200 returns the body
as-is. -/
theorem C2_invoker_error_envelope_and_success (transport : Transport)
    (path : String) :
    (responseOk (transport path).status = true →
      fetchTenorApi transport path = Except.ok (transport path).body) ∧
    (∀ code msg : Json,
      responseOk (transport path).status = false →
      (transport path).body =
        Json.obj [("error", Json.obj [("code", code), ("message", msg)])] →
      fetchTenorApi transport path = Except.error ⟨code, msg⟩) ∧
    fetchTenorApi
        (fun _ => ⟨400,
          Json.obj [("error",
            Json.obj [("code", Json.str "BAD_REQUEST"),
                      ("message", Json.str "x")])]⟩) path =
      Except.error ⟨Json.str "BAD_REQUEST", Json.str "x"⟩ ∧
    fetchTenorApi
        (fun _ => ⟨200, Json.obj [("results", Json.arr []),
                                  ("next", Json.str "")]⟩) path =
      Except.ok (Json.obj [("results", Json.arr []), ("next", Json.str "")]) := by
  refine ⟨?_, ?_, rfl, rfl⟩
  · intro h
    simp [fetchTenorApi, h]
  · intro code msg h hbody
    simp [fetchTenorApi, h, hbody, GoogleApiError.ofErrorBody, jsonGet, lookupKey]

/-- C2 witness: the two quantified branches applied to concrete mocked
transports. -/
theorem C2_invoker_error_envelope_and_success_witness :
    fetchTenorApi
        (fun _ => ⟨400,
          Json.obj [("error",
            Json.obj [("code", Json.str "BAD_REQUEST"),
                      ("message", Json.str "x")])]⟩) "search?q=a" =
      Except.error ⟨Json.str "BAD_REQUEST", Json.str "x"⟩ ∧
    fetchTenorApi
        (fun _ => ⟨200, Json.obj [("results", Json.arr []),
                                  ("next", Json.str "")]⟩) "search?q=a" =
      Except.ok (Json.obj [("results", Json.arr []), ("next", Json.str "")]) := by
  constructor
  · exact (C2_invoker_error_envelope_and_success
      (fun _ => ⟨400,
        Json.obj [("error",
          Json.obj [("code", Json.str "BAD_REQUEST"),
                    ("message", Json.str "x")])]⟩) "search?q=a").2.1
      (Json.str "BAD_REQUEST") (Json.str "x") rfl rfl
  · exact (C2_invoker_error_envelope_and_success
      (fun _ => ⟨200, Json.obj [("results", Json.arr []),
                                ("next", Json.str "")]⟩) "search?q=a").1 rfl

/-- C7: `registerGifShareEvent` returns the boolean value of the envelope's
`status` field, not the envelope itself; in particular the envelope
`{"status": true}` makes the call return `true`. -/
theorem C7_register_share_returns_status_boolean :
    (∀ (b : Bool) (api : TenorApi) (id : String) (ps : List (String × Value)),
      TenorApi.registerGifShareEvent api
          (fun _ => ⟨200, Json.obj [("status", Json.bool b)]⟩) id ps =
        Except.ok (Json.bool b)) ∧
    TenorApi.registerGifShareEvent ⟨"test_key", []⟩
        (fun _ => ⟨200, Json.obj [("status", Json.bool true)]⟩)
        "16989471141791455574" [] =
      Except.ok (Json.bool true) ∧
    TenorApi.registerGifShareEvent ⟨"test_key", []⟩
        (fun _ => ⟨200, Json.obj [("status", Json.bool true)]⟩)
        "16989471141791455574" [] ≠
      Except.ok (Json.obj [("status", Json.bool true)]) := by
  refine ⟨fun b api id ps => rfl, rfl, fun hcontra => ?_⟩
  exact Json.noConfusion (Except.ok.inj hcontra)

set_option maxRecDepth 8000 in
/-- C5: `getGifsByCategory` builds its request URL by appending the
serialized remaining parameters to the category descriptor's opaque
pre-built path with a `&` joiner; with path `search?q=excited` and
parameters `limit: 8` (and nothing retained from the standing
configuration) the produced URL is exactly, and hence ends in,
`search?q=excited&limit=8`. -/
theorem C5_category_search_ampersand_joiner :
    (∀ (api : TenorApi) (category : GifCategory) (ps : List (String × Value)),
      getGifsByCategoryPath api category ps =
        category.path ++ "&" ++
          queryToString
            (createUrlParameters
              (renameParameters (api.combineParameters ps)))) ∧
    getGifsByCategoryPath ⟨"", []⟩ ⟨"excited", "search?q=excited", "", ""⟩
        [("limit", Value.num 8)] = "search?q=excited&limit=8" ∧
    List.isSuffixOf ("search?q=excited&limit=8").data
        (getGifsByCategoryPath ⟨"", []⟩ ⟨"excited", "search?q=excited", "", ""⟩
          [("limit", Value.num 8)]).data = true := by
  refine ⟨fun api category ps => rfl, by decide, by decide⟩

theorem containsKey_append {α : Type} (k : String) (a b : List (String × α)) :
    containsKey k (a ++ b) = (containsKey k a || containsKey k b) := by
  induction a with
  | nil => simp [containsKey]
  | cons p rest ih =>
    by_cases hp : p.1 = k <;> simp [containsKey, hp, ih]

theorem objInsert_of_not_contains {α : Type} (m : List (String × α)) (k : String)
    (v : α) (hc : containsKey k m = false) : objInsert m k v = m ++ [(k, v)] := by
  simp [objInsert, hc]

theorem foldl_renameInsert_append (m : List (String × Value))
    (acc : List (String × Value))
    (hfresh : ∀ p ∈ m, containsKey (renameKey p.1) acc = false)
    (hnd : (m.map (fun p => renameKey p.1)).Nodup) :
    m.foldl (fun acc p => objInsert acc (renameKey p.1) p.2) acc =
      acc ++ m.map (fun p => (renameKey p.1, p.2)) := by
  induction m generalizing acc with
  | nil => simp
  | cons p rest ih =>
    rw [List.map_cons, List.nodup_cons] at hnd
    rw [List.foldl_cons,
      objInsert_of_not_contains _ _ _ (hfresh p (by simp)),
      ih (acc ++ [(renameKey p.1, p.2)]) ?_ hnd.2]
    · simp
    · intro q hq
      rw [containsKey_append]
      have hca : containsKey (renameKey q.1) acc = false :=
        hfresh q (by simp [hq])
      have hne : renameKey p.1 ≠ renameKey q.1 := by
        intro he
        exact hnd.1 (by rw [he]; exact List.mem_map_of_mem _ hq)
      have hcb : containsKey (renameKey q.1) [(renameKey p.1, p.2)] = false := by
        simp [containsKey, hne]
      rw [hca, hcb]
      rfl

theorem renameParameters_eq_map (m : List (String × Value))
    (hnd : (m.map (fun p => renameKey p.1)).Nodup) :
    renameParameters m = m.map (fun p => (renameKey p.1, p.2)) := by
  have h := foldl_renameInsert_append m [] (fun p _ => rfl) hnd
  simpa [renameParameters] using h

theorem renameKey_injOn_domain :
    ∀ a ∈ endpointParameterKeys, ∀ b ∈ endpointParameterKeys,
      renameKey a = renameKey b → a = b := by decide

theorem renameKey_ne_table_key :
    ∀ a ∈ endpointParameterKeys, ∀ b ∈ endpointParameterKeys,
      inRenameTable b = true → renameKey a ≠ b := by decide

theorem renamed_keys_nodup (m : List (String × Value))
    (h1 : ∀ k ∈ mapKeys m, k ∈ endpointParameterKeys)
    (h2 : (mapKeys m).Nodup) :
    (m.map (fun p => renameKey p.1)).Nodup := by
  have he : m.map (fun p => renameKey p.1) = (mapKeys m).map renameKey := by
    simp [mapKeys, List.map_map]
  rw [he]
  exact h2.map_on
    (fun x hx y hy hxy => renameKey_injOn_domain x (h1 x hx) y (h1 y hy) hxy)

theorem lookupKey_map_renamed (m : List (String × Value))
    (hnd : (m.map (fun p => renameKey p.1)).Nodup)
    {p : String × Value} (hp : p ∈ m) :
    lookupKey (renameKey p.1) (m.map (fun q => (renameKey q.1, q.2))) =
      some p.2 := by
  induction m with
  | nil => cases hp
  | cons q rest ih =>
    rw [List.map_cons, List.nodup_cons] at hnd
    rcases List.mem_cons.mp hp with he | hm
    · subst he
      simp [lookupKey]
    · have hne : ¬ renameKey q.1 = renameKey p.1 := by
        intro hx
        exact hnd.1 (by rw [hx]; exact List.mem_map_of_mem _ hm)
      simp [lookupKey, hne, ih hnd.2 hm]

theorem renameKey_eq_self_of_not_table (k : String)
    (h : inRenameTable k = false) : renameKey k = k := by
  simp only [inRenameTable, Bool.or_eq_false_iff, decide_eq_false_iff_not] at h
  obtain ⟨⟨⟨⟨⟨⟨⟨n1, n2⟩, n3⟩, n4⟩, n5⟩, n6⟩, n7⟩, n8⟩ := h
  simp [renameKey, n1, n2, n3, n4, n5, n6, n7, n8]

/-- C4: for inputs drawn from the `EndpointParameters` field names (the
function's typed domain), every key in the rename table comes out under its
wire name with its value unchanged and the idiomatic name is absent from the
output, while every key not in the table is passed through unchanged with
its value. -/
theorem C4_renameParameters_wire_names (m : List (String × Value))
    (h1 : ∀ k ∈ mapKeys m, k ∈ endpointParameterKeys)
    (h2 : (mapKeys m).Nodup) :
    (∀ p ∈ m, inRenameTable p.1 = true →
      lookupKey (renameKey p.1) (renameParameters m) = some p.2 ∧
      containsKey p.1 (renameParameters m) = false) ∧
    (∀ p ∈ m, inRenameTable p.1 = false →
      lookupKey p.1 (renameParameters m) = some p.2) := by
  have hnd := renamed_keys_nodup m h1 h2
  rw [renameParameters_eq_map m hnd]
  constructor
  · intro p hp htab
    refine ⟨lookupKey_map_renamed m hnd hp, ?_⟩
    rw [containsKey_eq_isSome, lookupKey_eq_none_of_not_mem ?_]
    · rfl
    · intro hmem
      have hmem' : p.1 ∈ m.map (fun q => renameKey q.1) := by
        simpa [mapKeys, List.map_map] using hmem
      rcases List.mem_map.mp hmem' with ⟨q, hq, hqe⟩
      exact renameKey_ne_table_key q.1
        (h1 q.1 (List.mem_map_of_mem _ hq)) p.1
        (h1 p.1 (List.mem_map_of_mem _ hp)) htab hqe
  · intro p hp htab
    have hself : renameKey p.1 = p.1 := renameKey_eq_self_of_not_table p.1 htab
    have h := lookupKey_map_renamed m hnd hp
    rwa [hself] at h

/-- C4 witness: a typed parameter object with three table keys and two
pass-through keys evaluated through the normalizer. -/
theorem C4_renameParameters_wire_names_witness :
    lookupKey "q"
        (renameParameters [("searchTerm", Value.str "excited"),
          ("limit", Value.num 8), ("clientKey", Value.str "my_test_app"),
          ("isRandomOrder", Value.bool true), ("key", Value.str "test_key")]) =
      some (Value.str "excited") ∧
    containsKey "searchTerm"
        (renameParameters [("searchTerm", Value.str "excited"),
          ("limit", Value.num 8), ("clientKey", Value.str "my_test_app"),
          ("isRandomOrder", Value.bool true), ("key", Value.str "test_key")]) =
      false ∧
    lookupKey "limit"
        (renameParameters [("searchTerm", Value.str "excited"),
          ("limit", Value.num 8), ("clientKey", Value.str "my_test_app"),
          ("isRandomOrder", Value.bool true), ("key", Value.str "test_key")]) =
      some (Value.num 8) := by
  have h := C4_renameParameters_wire_names
    [("searchTerm", Value.str "excited"), ("limit", Value.num 8),
     ("clientKey", Value.str "my_test_app"), ("isRandomOrder", Value.bool true),
     ("key", Value.str "test_key")] (by decide) (by decide)
  refine ⟨?_, ?_, ?_⟩
  · exact (h.1 ("searchTerm", Value.str "excited") (by decide) (by decide)).1
  · exact (h.1 ("searchTerm", Value.str "excited") (by decide) (by decide)).2
  · exact h.2 ("limit", Value.num 8) (by decide) (by decide)

/-- C9: the normalize-then-serialize pipeline is a pure function of the
input mapping — identical inputs give byte-identical query strings — and
reordering the input's fields only reorders the retained pairs
(a permutation of inputs yields a permutation of outputs). -/
theorem C9_pipeline_deterministic (m m1 m2 : List (String × Value))
    (h1 : (m1.map (fun p => renameKey p.1)).Nodup)
    (h2 : (m2.map (fun p => renameKey p.1)).Nodup)
    (hperm : m1.Perm m2) :
    queryToString (createUrlParameters (renameParameters m)) =
      queryToString (createUrlParameters (renameParameters m)) ∧
    (createUrlParameters (renameParameters m1)).Perm
      (createUrlParameters (renameParameters m2)) := by
  refine ⟨rfl, ?_⟩
  rw [renameParameters_eq_map m1 h1, renameParameters_eq_map m2 h2]
  unfold createUrlParameters
  exact (hperm.map _).filterMap _

/-- C9 witness: two field orders of the same parameter object produce
permuted retained pairs. -/
theorem C9_pipeline_deterministic_witness :
    (createUrlParameters (renameParameters
      [("searchTerm", Value.str "excited"), ("limit", Value.num 8)])).Perm
      (createUrlParameters (renameParameters
        [("limit", Value.num 8), ("searchTerm", Value.str "excited")])) := by
  have h := C9_pipeline_deterministic []
    [("searchTerm", Value.str "excited"), ("limit", Value.num 8)]
    [("limit", Value.num 8), ("searchTerm", Value.str "excited")]
    (by decide) (by decide) (by decide)
  exact h.2

theorem createUrlParameters_cons (p : String × Value)
    (rest : List (String × Value)) :
    createUrlParameters (p :: rest) =
      (if truthyValue p.2 && !isEmptyArray p.2 then [(p.1, valueToString p.2)]
       else []) ++ createUrlParameters rest := by
  unfold createUrlParameters
  rw [List.filterMap_cons]
  by_cases hc : truthyValue p.2 && !isEmptyArray p.2
  · rw [if_pos hc, if_pos hc]
    rfl
  · rw [if_neg hc, if_neg hc]
    rfl

theorem lookupKey_createUrlParameters_of_not_mem {k : String}
    {m : List (String × Value)} (h : k ∉ mapKeys m) :
    lookupKey k (createUrlParameters m) = none := by
  induction m with
  | nil => rfl
  | cons p rest ih =>
    have h1 : ¬ p.1 = k := fun he => h (by simp [mapKeys, he])
    have h2 : k ∉ mapKeys rest := by
      intro hm
      apply h
      simp only [mapKeys_cons, List.mem_cons]
      exact Or.inr hm
    rw [createUrlParameters_cons]
    by_cases hc : truthyValue p.2 && !isEmptyArray p.2
    · rw [if_pos hc, List.singleton_append, lookupKey, if_neg h1]
      exact ih h2
    · rw [if_neg hc, List.nil_append]
      exact ih h2

theorem lookupKey_createUrlParameters {m : List (String × Value)}
    (hnd : (mapKeys m).Nodup) {p : String × Value} (hp : p ∈ m) :
    lookupKey p.1 (createUrlParameters m) =
      if truthyValue p.2 && !isEmptyArray p.2 then some (valueToString p.2)
      else none := by
  induction m with
  | nil => cases hp
  | cons q rest ih =>
    rw [mapKeys_cons, List.nodup_cons] at hnd
    rw [createUrlParameters_cons]
    rcases List.mem_cons.mp hp with he | hm
    · subst he
      have hn : lookupKey p.1 (createUrlParameters rest) = none :=
        lookupKey_createUrlParameters_of_not_mem hnd.1
      by_cases hc : truthyValue p.2 && !isEmptyArray p.2
      · rw [if_pos hc, if_pos hc, List.singleton_append, lookupKey, if_pos rfl]
      · rw [if_neg hc, if_neg hc, List.nil_append]
        exact hn
    · have hne : ¬ q.1 = p.1 := by
        intro he
        exact hnd.1 (he ▸ List.mem_map_of_mem Prod.fst hm)
      by_cases hc : truthyValue q.2 && !isEmptyArray q.2
      · rw [if_pos hc, List.singleton_append, lookupKey, if_neg hne]
        exact ih hnd.2 hm
      · rw [if_neg hc, List.nil_append]
        exact ih hnd.2 hm

theorem lookupKey_some_mem {α : Type} {k : String} {m : List (String × α)}
    {v : α} (h : lookupKey k m = some v) : (k, v) ∈ m := by
  induction m with
  | nil => cases h
  | cons p rest ih =>
    by_cases hp : p.1 = k
    · rw [lookupKey, if_pos hp] at h
      have hv : p.2 = v := Option.some.inj h
      have hpkv : p = (k, v) := by
        cases p
        simp_all
      rw [← hpkv]
      exact List.mem_cons_self _ _
    · rw [lookupKey, if_neg hp] at h
      exact List.mem_cons_of_mem _ (ih h)

/-- C3: with distinct field names, the query builder omits every falsy field
and every empty-array field entirely, serializes a non-empty array field as
a single comma-joined parameter, and serializes every other retained field
as its string form; the serialized pair appears percent-encoded in the
output string's `&`-separated chunks. -/
theorem C3_query_builder_filtering (m : List (String × Value))
    (hnd : (mapKeys m).Nodup) :
    (∀ p ∈ m, truthyValue p.2 = false →
      containsKey p.1 (createUrlParameters m) = false) ∧
    (∀ p ∈ m, isEmptyArray p.2 = true →
      containsKey p.1 (createUrlParameters m) = false) ∧
    (∀ p ∈ m, ∀ xs, p.2 = Value.arr xs → xs ≠ [] →
      lookupKey p.1 (createUrlParameters m) = some (commaJoin xs)) ∧
    (∀ p ∈ m, truthyValue p.2 = true → isEmptyArray p.2 = false →
      lookupKey p.1 (createUrlParameters m) = some (valueToString p.2) ∧
      (encodeComponent p.1 ++ "=" ++ encodeComponent (valueToString p.2)) ∈
        (createUrlParameters m).map pairChunk) := by
  refine ⟨?_, ?_, ?_, ?_⟩
  · intro p hp hf
    rw [containsKey_eq_isSome, lookupKey_createUrlParameters hnd hp, hf]
    rfl
  · intro p hp he
    rw [containsKey_eq_isSome, lookupKey_createUrlParameters hnd hp, he]
    simp
  · intro p hp xs hxs hne
    rw [lookupKey_createUrlParameters hnd hp, hxs]
    cases xs with
    | nil => cases hne rfl
    | cons x rest => simp [truthyValue, isEmptyArray, valueToString]
  · intro p hp ht he
    have hl : lookupKey p.1 (createUrlParameters m) = some (valueToString p.2) := by
      rw [lookupKey_createUrlParameters hnd hp, ht, he]
      rfl
    refine ⟨hl, ?_⟩
    have hmem : (p.1, valueToString p.2) ∈ createUrlParameters m :=
      lookupKey_some_mem hl
    exact List.mem_map_of_mem pairChunk hmem

/-- C3 witness: a mapping exercising all four cases — a dropped falsy
number, a dropped empty string, a dropped falsy boolean, a dropped empty
array, a comma-joined non-empty array, and a retained string. -/
theorem C3_query_builder_filtering_witness :
    containsKey "limit"
        (createUrlParameters [("q", Value.str "excited"),
          ("limit", Value.num 0), ("random", Value.bool false),
          ("pos", Value.str ""), ("searchfilter", Value.arr []),
          ("media_filter", Value.arr ["gif", "mp4"])]) = false ∧
    containsKey "searchfilter"
        (createUrlParameters [("q", Value.str "excited"),
          ("limit", Value.num 0), ("random", Value.bool false),
          ("pos", Value.str ""), ("searchfilter", Value.arr []),
          ("media_filter", Value.arr ["gif", "mp4"])]) = false ∧
    lookupKey "media_filter"
        (createUrlParameters [("q", Value.str "excited"),
          ("limit", Value.num 0), ("random", Value.bool false),
          ("pos", Value.str ""), ("searchfilter", Value.arr []),
          ("media_filter", Value.arr ["gif", "mp4"])]) =
      some (commaJoin ["gif", "mp4"]) ∧
    lookupKey "q"
        (createUrlParameters [("q", Value.str "excited"),
          ("limit", Value.num 0), ("random", Value.bool false),
          ("pos", Value.str ""), ("searchfilter", Value.arr []),
          ("media_filter", Value.arr ["gif", "mp4"])]) =
      some (valueToString (Value.str "excited")) := by
  have h := C3_query_builder_filtering
    [("q", Value.str "excited"), ("limit", Value.num 0),
     ("random", Value.bool false), ("pos", Value.str ""),
     ("searchfilter", Value.arr []), ("media_filter", Value.arr ["gif", "mp4"])]
    (by decide)
  refine ⟨?_, ?_, ?_, ?_⟩
  · exact h.1 ("limit", Value.num 0) (by decide) (by decide)
  · exact h.2.1 ("searchfilter", Value.arr []) (by decide) (by decide)
  · exact h.2.2.1 ("media_filter", Value.arr ["gif", "mp4"]) (by decide)
      ["gif", "mp4"] rfl (by decide)
  · exact (h.2.2.2 ("q", Value.str "excited") (by decide) (by decide)
      (by decide)).1

theorem charOfNat_toNat_of_valid (n : Nat) (h : Nat.isValidChar n) :
    (Char.ofNat n).toNat = n := by
  rw [Char.ofNat, dif_pos h]
  rfl

theorem char_toNat_lt (c : Char) : c.toNat < 1114112 := by
  rcases c.valid with h | h
  · have hlt := UInt32.toNat_lt_of_lt (n := c.val) (m := 0xd800) (by decide) h
    simp only [Char.toNat]
    omega
  · have hlt := UInt32.toNat_lt_of_lt (n := c.val) (m := 0x110000) (by decide) h.2
    simp only [Char.toNat]
    omega



theorem utf8DecodeAux_succ_cons (fuel b : Nat) (bs : List Nat) :
    utf8DecodeAux (fuel + 1) (b :: bs) =
      if b < 0x80 then
        (utf8DecodeAux fuel bs).map (fun cs => Char.ofNat b :: cs)
      else if b < 0xE0 then
        match bs with
        | b1 :: bs1 =>
          (utf8DecodeAux fuel bs1).map
            (fun cs => Char.ofNat ((b - 0xC0) * 64 + (b1 - 0x80)) :: cs)
        | [] => none
      else if b < 0xF0 then
        match bs with
        | b1 :: b2 :: bs2 =>
          (utf8DecodeAux fuel bs2).map
            (fun cs =>
              Char.ofNat ((b - 0xE0) * 4096 + (b1 - 0x80) * 64 + (b2 - 0x80)) :: cs)
        | _ => none
      else
        match bs with
        | b1 :: b2 :: b3 :: bs3 =>
          (utf8DecodeAux fuel bs3).map
            (fun cs =>
              Char.ofNat ((b - 0xF0) * 262144 + (b1 - 0x80) * 4096 +
                (b2 - 0x80) * 64 + (b3 - 0x80)) :: cs)
        | _ => none := rfl

theorem utf8DecodeAux_nil (fuel : Nat) : utf8DecodeAux fuel [] = some [] := by
  cases fuel <;> rfl

theorem utf8DecodeAux_one (fuel b : Nat) (bs : List Nat) (h : b < 0x80) :
    utf8DecodeAux (fuel + 1) (b :: bs) =
      (utf8DecodeAux fuel bs).map (fun cs => Char.ofNat b :: cs) := by
  rw [utf8DecodeAux_succ_cons, if_pos h]

theorem utf8DecodeAux_two (fuel b b1 : Nat) (bs : List Nat)
    (h1 : ¬ b < 0x80) (h2 : b < 0xE0) :
    utf8DecodeAux (fuel + 1) (b :: b1 :: bs) =
      (utf8DecodeAux fuel bs).map
        (fun cs => Char.ofNat ((b - 0xC0) * 64 + (b1 - 0x80)) :: cs) := by
  rw [utf8DecodeAux_succ_cons, if_neg h1, if_pos h2]

theorem utf8DecodeAux_three (fuel b b1 b2 : Nat) (bs : List Nat)
    (h1 : ¬ b < 0x80) (h2 : ¬ b < 0xE0) (h3 : b < 0xF0) :
    utf8DecodeAux (fuel + 1) (b :: b1 :: b2 :: bs) =
      (utf8DecodeAux fuel bs).map
        (fun cs =>
          Char.ofNat ((b - 0xE0) * 4096 + (b1 - 0x80) * 64 + (b2 - 0x80)) :: cs) := by
  rw [utf8DecodeAux_succ_cons, if_neg h1, if_neg h2, if_pos h3]

theorem utf8DecodeAux_four (fuel b b1 b2 b3 : Nat) (bs : List Nat)
    (h1 : ¬ b < 0x80) (h2 : ¬ b < 0xE0) (h3 : ¬ b < 0xF0) :
    utf8DecodeAux (fuel + 1) (b :: b1 :: b2 :: b3 :: bs) =
      (utf8DecodeAux fuel bs).map
        (fun cs =>
          Char.ofNat ((b - 0xF0) * 262144 + (b1 - 0x80) * 4096 +
            (b2 - 0x80) * 64 + (b3 - 0x80)) :: cs) := by
  rw [utf8DecodeAux_succ_cons, if_neg h1, if_neg h2, if_neg h3]

theorem utf8DecodeAux_irrel (f1 : Nat) :
    ∀ (l : List Nat) (f2 : Nat), l.length ≤ f1 → l.length ≤ f2 →
      utf8DecodeAux f1 l = utf8DecodeAux f2 l := by
  induction f1 with
  | zero =>
    intro l f2 h1 h2
    have hl : l = [] := List.eq_nil_of_length_eq_zero (by omega)
    subst hl
    rw [utf8DecodeAux_nil, utf8DecodeAux_nil]
  | succ a ih =>
    intro l f2 h1 h2
    cases l with
    | nil => rw [utf8DecodeAux_nil, utf8DecodeAux_nil]
    | cons b bs =>
      obtain ⟨c, rfl⟩ : ∃ c, f2 = c + 1 := by
        refine ⟨f2 - 1, ?_⟩
        simp only [List.length_cons] at h2
        omega
      simp only [List.length_cons] at h1 h2
      by_cases hb1 : b < 0x80
      · rw [utf8DecodeAux_one a b bs hb1, utf8DecodeAux_one c b bs hb1,
          ih bs c (by omega) (by omega)]
      · by_cases hb2 : b < 0xE0
        · cases bs with
          | nil =>
            simp only [utf8DecodeAux_succ_cons, if_neg hb1, if_pos hb2]
          | cons b1 bs1 =>
            simp only [List.length_cons] at h1 h2
            rw [utf8DecodeAux_two a b b1 bs1 hb1 hb2,
              utf8DecodeAux_two c b b1 bs1 hb1 hb2,
              ih bs1 c (by omega) (by omega)]
        · by_cases hb3 : b < 0xF0
          · cases bs with
            | nil =>
              simp only [utf8DecodeAux_succ_cons, if_neg hb1, if_neg hb2,
                if_pos hb3]
            | cons b1 bs1 =>
              cases bs1 with
              | nil =>
                simp only [utf8DecodeAux_succ_cons, if_neg hb1, if_neg hb2,
                  if_pos hb3]
              | cons b2 bs2 =>
                simp only [List.length_cons] at h1 h2
                rw [utf8DecodeAux_three a b b1 b2 bs2 hb1 hb2 hb3,
                  utf8DecodeAux_three c b b1 b2 bs2 hb1 hb2 hb3,
                  ih bs2 c (by omega) (by omega)]
          · cases bs with
            | nil =>
              simp only [utf8DecodeAux_succ_cons, if_neg hb1, if_neg hb2,
                if_neg hb3]
            | cons b1 bs1 =>
              cases bs1 with
              | nil =>
                simp only [utf8DecodeAux_succ_cons, if_neg hb1, if_neg hb2,
                  if_neg hb3]
              | cons b2 bs2 =>
                cases bs2 with
                | nil =>
                  simp only [utf8DecodeAux_succ_cons, if_neg hb1, if_neg hb2,
                    if_neg hb3]
                | cons b3 bs3 =>
                  simp only [List.length_cons] at h1 h2
                  rw [utf8DecodeAux_four a b b1 b2 b3 bs3 hb1 hb2 hb3,
                    utf8DecodeAux_four c b b1 b2 b3 bs3 hb1 hb2 hb3,
                    ih bs3 c (by omega) (by omega)]

theorem utf8DecodeBytes_encode (n : Nat) (hlt : n < 1114112) (bs : List Nat) :
    utf8DecodeBytes (utf8EncodeCodepoint n ++ bs) =
      (utf8DecodeBytes bs).map (fun cs => Char.ofNat n :: cs) := by
  unfold utf8DecodeBytes utf8EncodeCodepoint
  by_cases h1 : n < 0x80
  · rw [if_pos h1]
    simp only [List.cons_append, List.nil_append, List.length_cons]
    rw [utf8DecodeAux_one bs.length n bs h1]
  · rw [if_neg h1]
    by_cases h2 : n < 0x800
    · rw [if_pos h2]
      simp only [List.cons_append, List.nil_append, List.length_cons]
      have hb1 : ¬ (0xC0 + n / 64 < 0x80) := by omega
      have hb2 : 0xC0 + n / 64 < 0xE0 := by omega
      rw [utf8DecodeAux_two (bs.length + 1) _ _ bs hb1 hb2,
        utf8DecodeAux_irrel (bs.length + 1) bs bs.length (by omega)
          (Nat.le_refl _)]
      have ha : (0xC0 + n / 64 - 0xC0) * 64 + (0x80 + n % 64 - 0x80) = n := by
        omega
      simp only [ha]
    · rw [if_neg h2]
      by_cases h3 : n < 0x10000
      · rw [if_pos h3]
        simp only [List.cons_append, List.nil_append, List.length_cons]
        have hb1 : ¬ (0xE0 + n / 4096 < 0x80) := by omega
        have hb2 : ¬ (0xE0 + n / 4096 < 0xE0) := by omega
        have hb3 : 0xE0 + n / 4096 < 0xF0 := by omega
        rw [utf8DecodeAux_three (bs.length + 2) _ _ _ bs hb1 hb2 hb3,
          utf8DecodeAux_irrel (bs.length + 2) bs bs.length (by omega)
            (Nat.le_refl _)]
        have ha : (0xE0 + n / 4096 - 0xE0) * 4096 +
            (0x80 + n / 64 % 64 - 0x80) * 64 + (0x80 + n % 64 - 0x80) = n := by
          omega
        simp only [ha]
      · rw [if_neg h3]
        simp only [List.cons_append, List.nil_append, List.length_cons]
        have hb1 : ¬ (0xF0 + n / 262144 < 0x80) := by omega
        have hb2 : ¬ (0xF0 + n / 262144 < 0xE0) := by omega
        have hb3 : ¬ (0xF0 + n / 262144 < 0xF0) := by omega
        rw [utf8DecodeAux_four (bs.length + 3) _ _ _ _ bs hb1 hb2 hb3,
          utf8DecodeAux_irrel (bs.length + 3) bs bs.length (by omega)
            (Nat.le_refl _)]
        have ha : (0xF0 + n / 262144 - 0xF0) * 262144 +
            (0x80 + n / 4096 % 64 - 0x80) * 4096 +
            (0x80 + n / 64 % 64 - 0x80) * 64 + (0x80 + n % 64 - 0x80) = n := by
          omega
        simp only [ha]

theorem utf8Decode_foldr (cs : List Char) (bs : List Nat) :
    utf8DecodeBytes
        (cs.foldr (fun c acc => utf8EncodeCodepoint c.toNat ++ acc) bs) =
      (utf8DecodeBytes bs).map (fun tail => cs ++ tail) := by
  induction cs with
  | nil =>
    simp only [List.foldr_nil]
    cases utf8DecodeBytes bs <;> simp
  | cons c rest ih =>
    simp only [List.foldr_cons]
    rw [utf8DecodeBytes_encode c.toNat (char_toNat_lt c), ih]
    simp only [Char.ofNat_toNat]
    cases utf8DecodeBytes bs <;> simp

theorem utf8DecodeBytes_nil : utf8DecodeBytes [] = some [] := rfl

theorem utf8Decode_bytesOfString (s : String) :
    utf8DecodeBytes (bytesOfString s) = some s.data := by
  have h := utf8Decode_foldr s.data []
  rw [utf8DecodeBytes_nil] at h
  simpa [bytesOfString] using h


theorem pctDecodeAux_nil (fuel : Nat) : pctDecodeAux fuel [] = some [] := by
  cases fuel <;> rfl

theorem pctDecodeAux_succ_cons (fuel : Nat) (c : Char) (cs : List Char) :
    pctDecodeAux (fuel + 1) (c :: cs) =
      (if c = '%' then
        match cs with
        | h :: l :: rest =>
          match hexDigitValue h, hexDigitValue l with
          | some hv, some lv =>
            (pctDecodeAux fuel rest).map (fun bs => (16 * hv + lv) :: bs)
          | _, _ => none
        | _ => none
      else if c = '+' then (pctDecodeAux fuel cs).map (fun bs => 0x20 :: bs)
      else (pctDecodeAux fuel cs).map (fun bs => c.toNat :: bs)) := rfl

theorem pctDecodeAux_irrel (f1 : Nat) :
    ∀ (l : List Char) (f2 : Nat), l.length ≤ f1 → l.length ≤ f2 →
      pctDecodeAux f1 l = pctDecodeAux f2 l := by
  induction f1 with
  | zero =>
    intro l f2 h1 h2
    have hl : l = [] := List.eq_nil_of_length_eq_zero (by omega)
    subst hl
    rw [pctDecodeAux_nil, pctDecodeAux_nil]
  | succ a ih =>
    intro l f2 h1 h2
    cases l with
    | nil => rw [pctDecodeAux_nil, pctDecodeAux_nil]
    | cons c cs =>
      obtain ⟨d, rfl⟩ : ∃ d, f2 = d + 1 := by
        refine ⟨f2 - 1, ?_⟩
        simp only [List.length_cons] at h2
        omega
      simp only [List.length_cons] at h1 h2
      by_cases hc : c = '%'
      · subst hc
        cases cs with
        | nil => simp [pctDecodeAux_succ_cons]
        | cons h t =>
          cases t with
          | nil => simp [pctDecodeAux_succ_cons]
          | cons l2 rest =>
            simp only [List.length_cons] at h1 h2
            have hgoal := ih rest d (by omega) (by omega)
            simp [pctDecodeAux_succ_cons, hgoal]
      · by_cases hp : c = '+'
        · subst hp
          have hgoal := ih cs d (by omega) (by omega)
          simp [pctDecodeAux_succ_cons, hgoal]
        · have hgoal := ih cs d (by omega) (by omega)
          simp [pctDecodeAux_succ_cons, hc, hp, hgoal]

theorem hexRound : ∀ d, d < 16 → hexDigitValue (hexDigitChar d) = some d := by
  decide

theorem hexDigitChar_not_special :
    ∀ d, d < 16 → hexDigitChar d ≠ '&' ∧ hexDigitChar d ≠ '=' ∧
      hexDigitChar d ≠ '%' ∧ hexDigitChar d ≠ '+' := by
  decide

theorem isSafeByte_bounds {b : Nat} (h : isSafeByte b = true) :
    b ≤ 0x7A ∧ b ≠ 0x25 ∧ b ≠ 0x2B ∧ b ≠ 0x26 ∧ b ≠ 0x3D ∧ b ≠ 0x20 := by
  simp only [isSafeByte, Bool.or_eq_true, decide_eq_true_eq,
    Bool.and_eq_true] at h
  omega

theorem charOfNat_ne_of_toNat_ne {b m : Nat} (hb : b < 128) (hne : b ≠ m)
    (c : Char) (hc : c.toNat = m) : Char.ofNat b ≠ c := by
  intro he
  have h1 : (Char.ofNat b).toNat = b :=
    charOfNat_toNat_of_valid b (Or.inl (by omega))
  rw [he, hc] at h1
  exact hne h1.symm

theorem pctDecode_encodeByte (b : Nat) (hb : b < 256) (cs : List Char) :
    pctDecodeBytes (pctEncodeByte b ++ cs) =
      (pctDecodeBytes cs).map (fun bs => b :: bs) := by
  unfold pctDecodeBytes pctEncodeByte
  by_cases h20 : b = 0x20
  · rw [if_pos h20]
    simp only [List.cons_append, List.nil_append, List.length_cons]
    rw [pctDecodeAux_succ_cons]
    rw [if_neg (by decide), if_pos rfl]
    subst h20
    rfl
  · rw [if_neg h20]
    by_cases hsafe : isSafeByte b
    · rw [if_pos hsafe]
      have hbnds := isSafeByte_bounds hsafe
      have hnp : Char.ofNat b ≠ '%' :=
        charOfNat_ne_of_toNat_ne (by omega) hbnds.2.1 '%' rfl
      have hnplus : Char.ofNat b ≠ '+' :=
        charOfNat_ne_of_toNat_ne (by omega) hbnds.2.2.1 '+' rfl
      simp only [List.cons_append, List.nil_append, List.length_cons]
      rw [pctDecodeAux_succ_cons, if_neg hnp, if_neg hnplus]
      have htn : (Char.ofNat b).toNat = b :=
        charOfNat_toNat_of_valid b (Or.inl (by omega))
      simp only [htn]
    · rw [if_neg hsafe]
      simp only [List.cons_append, List.nil_append, List.length_cons]
      rw [pctDecodeAux_succ_cons, if_pos rfl]
      have hhi := hexRound (b / 16) (by omega)
      have hlo := hexRound (b % 16) (by omega)
      show (match hexDigitValue (hexDigitChar (b / 16)),
          hexDigitValue (hexDigitChar (b % 16)) with
        | some hv, some lv =>
          (pctDecodeAux (cs.length + 2) cs).map (fun bs => (16 * hv + lv) :: bs)
        | _, _ => none) = _
      rw [hhi, hlo]
      show (pctDecodeAux (cs.length + 2) cs).map
          (fun bs => (16 * (b / 16) + b % 16) :: bs) = _
      rw [pctDecodeAux_irrel (cs.length + 2) cs cs.length (by omega)
        (Nat.le_refl _)]
      have ha : 16 * (b / 16) + b % 16 = b := by omega
      simp only [ha]

theorem utf8EncodeCodepoint_bytes_lt (n : Nat) (hn : n < 1114112) :
    ∀ b ∈ utf8EncodeCodepoint n, b < 256 := by
  intro b hb
  unfold utf8EncodeCodepoint at hb
  by_cases h1 : n < 0x80
  · rw [if_pos h1] at hb
    simp only [List.mem_singleton] at hb
    omega
  · rw [if_neg h1] at hb
    by_cases h2 : n < 0x800
    · rw [if_pos h2] at hb
      simp only [List.mem_cons, List.not_mem_nil, or_false] at hb
      rcases hb with hb | hb <;> omega
    · rw [if_neg h2] at hb
      by_cases h3 : n < 0x10000
      · rw [if_pos h3] at hb
        simp only [List.mem_cons, List.not_mem_nil, or_false] at hb
        rcases hb with hb | hb | hb <;> omega
      · rw [if_neg h3] at hb
        simp only [List.mem_cons, List.not_mem_nil, or_false] at hb
        rcases hb with hb | hb | hb | hb <;> omega

theorem bytesOfString_lt (s : String) : ∀ b ∈ bytesOfString s, b < 256 := by
  suffices h : ∀ l : List Char,
      ∀ b ∈ l.foldr (fun c acc => utf8EncodeCodepoint c.toNat ++ acc) [],
        b < 256 from h s.data
  intro l
  induction l with
  | nil => simp
  | cons c rest ih =>
    intro b hb
    simp only [List.foldr_cons, List.mem_append] at hb
    rcases hb with hb | hb
    · exact utf8EncodeCodepoint_bytes_lt c.toNat (char_toNat_lt c) b hb
    · exact ih b hb

theorem pctDecode_foldr (bs : List Nat) (h : ∀ b ∈ bs, b < 256)
    (cs : List Char) :
    pctDecodeBytes (bs.foldr (fun b acc => pctEncodeByte b ++ acc) cs) =
      (pctDecodeBytes cs).map (fun tail => bs ++ tail) := by
  induction bs with
  | nil =>
    simp only [List.foldr_nil]
    cases pctDecodeBytes cs <;> simp
  | cons b rest ih =>
    simp only [List.foldr_cons]
    rw [pctDecode_encodeByte b (h b (List.mem_cons_self _ _)),
      ih (fun x hx => h x (List.mem_cons_of_mem _ hx))]
    cases pctDecodeBytes cs <;> simp

theorem pctDecodeBytes_nil : pctDecodeBytes [] = some [] := rfl

theorem decodeComponent_encodeComponent (s : String) :
    decodeComponent (encodeComponent s).data = some s := by
  unfold decodeComponent encodeComponent
  rw [show (String.mk
      ((bytesOfString s).foldr (fun b acc => pctEncodeByte b ++ acc) [])).data =
      (bytesOfString s).foldr (fun b acc => pctEncodeByte b ++ acc) [] from rfl]
  rw [pctDecode_foldr (bytesOfString s) (bytesOfString_lt s) [],
    pctDecodeBytes_nil]
  show (match utf8DecodeBytes (bytesOfString s ++ []) with
    | none => none
    | some chars => some (String.mk chars)) = some s
  rw [List.append_nil, utf8Decode_bytesOfString s]

theorem pctEncodeByte_chars (b : Nat) (hb : b < 256) :
    ∀ ch ∈ pctEncodeByte b, ch ≠ '&' ∧ ch ≠ '=' := by
  intro ch hch
  unfold pctEncodeByte at hch
  by_cases h20 : b = 0x20
  · rw [if_pos h20] at hch
    simp only [List.mem_singleton] at hch
    subst hch
    exact ⟨by decide, by decide⟩
  · rw [if_neg h20] at hch
    by_cases hsafe : isSafeByte b
    · rw [if_pos hsafe] at hch
      simp only [List.mem_singleton] at hch
      subst hch
      have hbnds := isSafeByte_bounds hsafe
      exact ⟨charOfNat_ne_of_toNat_ne (by omega) hbnds.2.2.2.1 '&' rfl,
        charOfNat_ne_of_toNat_ne (by omega) hbnds.2.2.2.2.1 '=' rfl⟩
    · rw [if_neg hsafe] at hch
      simp only [List.mem_cons, List.not_mem_nil, or_false] at hch
      rcases hch with hch | hch | hch
      · subst hch
        exact ⟨by decide, by decide⟩
      · subst hch
        have h := hexDigitChar_not_special (b / 16) (by omega)
        exact ⟨h.1, h.2.1⟩
      · subst hch
        have h := hexDigitChar_not_special (b % 16) (by omega)
        exact ⟨h.1, h.2.1⟩

theorem mem_foldr_pctEncode {ch : Char} :
    ∀ l : List Nat, ch ∈ l.foldr (fun b acc => pctEncodeByte b ++ acc) [] →
      ∃ b ∈ l, ch ∈ pctEncodeByte b := by
  intro l
  induction l with
  | nil =>
    intro h
    exact absurd h (List.not_mem_nil _)
  | cons b rest ih =>
    intro h
    simp only [List.foldr_cons, List.mem_append] at h
    rcases h with h | h
    · exact ⟨b, List.mem_cons_self _ _, h⟩
    · obtain ⟨b2, hb2, hch2⟩ := ih h
      exact ⟨b2, List.mem_cons_of_mem _ hb2, hch2⟩

theorem encodeComponent_chars (s : String) :
    ∀ ch ∈ (encodeComponent s).data, ch ≠ '&' ∧ ch ≠ '=' := by
  intro ch hch
  obtain ⟨b, hbmem, hbch⟩ := mem_foldr_pctEncode (bytesOfString s) hch
  exact pctEncodeByte_chars b (bytesOfString_lt s b hbmem) ch hbch

theorem splitOnAmp_no_amp (xs : List Char) (h : '&' ∉ xs) :
    splitOnAmp xs = [xs] := by
  induction xs with
  | nil => rfl
  | cons c cs ih =>
    have hc : ¬ c = '&' := fun he => h (by rw [he]; exact List.mem_cons_self _ _)
    have hcs : '&' ∉ cs := fun hm => h (List.mem_cons_of_mem _ hm)
    simp only [splitOnAmp]
    rw [if_neg hc, ih hcs]

theorem splitOnAmp_append (xs ys : List Char) (h : '&' ∉ xs) :
    splitOnAmp (xs ++ '&' :: ys) = xs :: splitOnAmp ys := by
  induction xs with
  | nil =>
    simp [splitOnAmp]
  | cons c cs ih =>
    have hc : ¬ c = '&' := fun he => h (by rw [he]; exact List.mem_cons_self _ _)
    have hcs : '&' ∉ cs := fun hm => h (List.mem_cons_of_mem _ hm)
    simp only [List.cons_append, splitOnAmp, List.append_eq]
    rw [if_neg hc, ih hcs]

theorem splitOnEq_append (xs ys : List Char) (h : '=' ∉ xs) :
    splitOnEq (xs ++ '=' :: ys) = (xs, ys) := by
  induction xs with
  | nil =>
    simp [splitOnEq]
  | cons c cs ih =>
    have hc : ¬ c = '=' := fun he => h (by rw [he]; exact List.mem_cons_self _ _)
    have hcs : '=' ∉ cs := fun hm => h (List.mem_cons_of_mem _ hm)
    simp only [List.cons_append, splitOnEq, List.append_eq]
    rw [if_neg hc, ih hcs]

theorem joinAmp_cons_cons (s t : String) (rest : List String) :
    joinAmp (s :: t :: rest) = s ++ "&" ++ joinAmp (t :: rest) := rfl

theorem pairChunk_data (p : String × String) :
    (pairChunk p).data =
      (encodeComponent p.1).data ++ '=' :: (encodeComponent p.2).data := by
  simp [pairChunk, String.data_append]

theorem parse_chunk_list (ss : List String)
    (h : ∀ s ∈ ss, '&' ∉ s.data ∧ s.data ≠ []) :
    (splitOnAmp (joinAmp ss).data).filter (fun ch => !ch.isEmpty) =
      ss.map String.data := by
  induction ss with
  | nil => rfl
  | cons s rest ih =>
    cases rest with
    | nil =>
      have hs := h s (List.mem_cons_self _ _)
      show (splitOnAmp s.data).filter (fun ch => !ch.isEmpty) = [s.data]
      rw [splitOnAmp_no_amp s.data hs.1]
      obtain ⟨c, cs, he⟩ := List.exists_cons_of_ne_nil hs.2
      rw [he]
      rfl
    | cons t rest2 =>
      have hs := h s (List.mem_cons_self _ _)
      have hrest : ∀ x ∈ t :: rest2, '&' ∉ x.data ∧ x.data ≠ [] :=
        fun x hx => h x (List.mem_cons_of_mem _ hx)
      rw [joinAmp_cons_cons]
      have hdata : (s ++ "&" ++ joinAmp (t :: rest2)).data =
          s.data ++ '&' :: (joinAmp (t :: rest2)).data := by
        simp [String.data_append]
      rw [hdata, splitOnAmp_append _ _ hs.1, List.filter_cons]
      obtain ⟨c, cs, he⟩ := List.exists_cons_of_ne_nil hs.2
      rw [he, if_pos (by rfl), ih hrest]
      simp [he]

theorem parseChunks_map (qps : List (String × String)) :
    parseChunks (qps.map (fun p => (pairChunk p).data)) = some qps := by
  induction qps with
  | nil => rfl
  | cons p rest ih =>
    simp only [List.map_cons, parseChunks]
    have hk := encodeComponent_chars p.1
    have hsplit : splitOnEq (pairChunk p).data =
        ((encodeComponent p.1).data, (encodeComponent p.2).data) := by
      rw [pairChunk_data]
      exact splitOnEq_append _ _ (fun hm => (hk _ hm).2 rfl)
    rw [hsplit, decodeComponent_encodeComponent p.1,
      decodeComponent_encodeComponent p.2, ih]

theorem parseQuery_queryToString (qps : List (String × String)) :
    parseQuery (queryToString qps) = some qps := by
  unfold parseQuery queryToString
  have hchunks : ∀ s ∈ qps.map pairChunk, '&' ∉ s.data ∧ s.data ≠ [] := by
    intro s hs
    rcases List.mem_map.mp hs with ⟨p, hp, he⟩
    subst he
    constructor
    · intro hm
      rw [pairChunk_data] at hm
      rcases List.mem_append.mp hm with hm | hm
      · exact (encodeComponent_chars p.1 '&' hm).1 rfl
      · rcases List.mem_cons.mp hm with hm | hm
        · exact absurd hm (by decide)
        · exact (encodeComponent_chars p.2 '&' hm).1 rfl
    · rw [pairChunk_data]
      intro hnil
      simp at hnil
  rw [parse_chunk_list (qps.map pairChunk) hchunks]
  rw [show (qps.map pairChunk).map String.data =
      qps.map (fun p => (pairChunk p).data) from by
    simp [List.map_map, Function.comp]]
  exact parseChunks_map qps

theorem createUrlParameters_eq_filter_map (m : List (String × Value))
    (h : ∀ p ∈ m, truthyValue p.2 = true → isArrayValue p.2 = false) :
    createUrlParameters m =
      (m.filter (fun p => truthyValue p.2)).map
        (fun p => (p.1, valueToString p.2)) := by
  induction m with
  | nil => rfl
  | cons p rest ih =>
    rw [createUrlParameters_cons, List.filter_cons]
    by_cases ht : truthyValue p.2
    · have harr : isArrayValue p.2 = false := h p (List.mem_cons_self _ _) ht
      have hne : isEmptyArray p.2 = false := by
        cases hv : p.2 <;> simp_all [isArrayValue, isEmptyArray]
      rw [if_pos (show (truthyValue p.2 && !isEmptyArray p.2) = true by
        simp [ht, hne])]
      rw [if_pos ht, List.map_cons,
        ih (fun q hq => h q (List.mem_cons_of_mem _ hq))]
      rfl
    · have hcond : ¬ (truthyValue p.2 && !isEmptyArray p.2) = true := by
        simp only [Bool.not_eq_true] at ht
        simp [ht]
      rw [if_neg hcond, if_neg ht, List.nil_append]
      exact ih (fun q hq => h q (List.mem_cons_of_mem _ hq))

/-- C8: for a mapping whose retained fields are non-array scalars, parsing
the produced query string succeeds and recovers exactly the retained fields,
each under its field name with its string form as value; in particular every
retained non-empty string field is recovered verbatim. -/
theorem C8_roundtrip_scalars (m : List (String × Value))
    (h : ∀ p ∈ m, truthyValue p.2 = true → isArrayValue p.2 = false) :
    parseQuery (queryToString (createUrlParameters m)) =
      some ((m.filter (fun p => truthyValue p.2)).map
        (fun p => (p.1, valueToString p.2))) ∧
    (∀ p ∈ m, ∀ s, p.2 = Value.str s → s ≠ "" →
      (p.1, s) ∈
        (m.filter (fun p => truthyValue p.2)).map
          (fun p => (p.1, valueToString p.2))) := by
  constructor
  · rw [parseQuery_queryToString, createUrlParameters_eq_filter_map m h]
  · intro p hp s hs hne
    have ht : truthyValue p.2 = true := by
      rw [hs]
      simp [truthyValue, hne]
    have hpf : p ∈ m.filter (fun p => truthyValue p.2) :=
      List.mem_filter.mpr ⟨hp, ht⟩
    have hmem : (p.1, valueToString p.2) ∈
        (m.filter (fun p => truthyValue p.2)).map
          (fun p => (p.1, valueToString p.2)) :=
      List.mem_map_of_mem (fun p => (p.1, valueToString p.2)) hpf
    rw [hs] at hmem
    simpa [valueToString] using hmem

set_option maxRecDepth 8000 in
/-- C8 witness: a mapping with two retained scalars (a string with a space
and a number) and two dropped falsy fields round-trips to exactly the two
retained pairs. -/
theorem C8_roundtrip_scalars_witness :
    parseQuery (queryToString (createUrlParameters
      [("q", Value.str "happy cat"), ("limit", Value.num 8),
       ("pos", Value.str ""), ("random", Value.bool false)])) =
      some [("q", "happy cat"), ("limit", "8")] := by
  have h := C8_roundtrip_scalars
    [("q", Value.str "happy cat"), ("limit", Value.num 8),
     ("pos", Value.str ""), ("random", Value.bool false)] (by decide)
  rw [h.1]
  rfl
